import Mathlib

/-!
Verification development for the semantic-kernel template engine and
invocation/orchestration pipeline (python implementation).

The definitions below are shallow embeddings of the python sources:

* `semantic_kernel/template_engine/template_tokenizer.py` (`TemplateTokenizer.tokenize`)
* `semantic_kernel/prompt_template/kernel_prompt_template.py` (`KernelPromptTemplate.render_blocks`)
* `semantic_kernel/prompt_template/prompt_template_base.py` (encoding helpers)
* `semantic_kernel/template_engine/blocks/named_arg_block.py` (`NamedArgBlock.render`)
* `semantic_kernel/kernel.py` (`Kernel.invoke`, `Kernel.invoke_stream`, handler registration,
  `Kernel.add_functions`)
* `semantic_kernel/functions/kernel_plugin.py` (dict-like function registration)
* `semantic_kernel/connectors/ai/open_ai/services/open_ai_chat_completion_base.py`
  (`complete_chat`, `_process_tool_call`, `_process_tool_calls`)

Python strings are modelled as `List Char`, dictionaries as association lists with
python-dict update semantics (update in place if the key exists, append otherwise),
raised exceptions as `Except`, and `None` as `Option.none`.  Loops are modelled with
structural fuel where the python loop bound is data-dependent, so that all
definitions compute by reduction.
-/

namespace SK

abbrev Chars := List Char

/-- Python slice `text[a:b]` (for `0 ≤ a ≤ b`). -/
def slice (cs : Chars) (a b : Nat) : Chars :=
  (cs.drop a).take (b - a)

/-- Whitespace characters recognised by python `str.strip()`. -/
def isSpaceCh (c : Char) : Bool :=
  c = ' ' || c = '\t' || c = '\n' || c = '\r' || c = Char.ofNat 11 || c = Char.ofNat 12

def trimLeft : Chars → Chars
  | [] => []
  | c :: r => if isSpaceCh c then trimLeft r else c :: r

/-- Python `str.strip()`. -/
def trimChars (cs : Chars) : Chars :=
  (trimLeft ((trimLeft cs.reverse)).reverse)

/-! ### Symbols (semantic_kernel/template_engine/blocks/symbols.py)

The file is absent from the sources; the constants are forced by the grammar in the
spec (sections 4.1 and 6): `{{`/`}}` delimiters, `$` variable prefix, single or double
quote literals, backslash escape. -/

def blockStarter : Char := '\x7b'
def blockEnder : Char := '\x7d'
def varPrefix : Char := '$'
def dblQuote : Char := '"'
def sglQuote : Char := Char.ofNat 39
def escapeChar : Char := '\\'

def isQuoteCh (c : Char) : Bool := c = dblQuote || c = sglQuote

/-- Identifier characters, per the spec grammar `identifier ::= [A-Za-z0-9_]+`. -/
def isIdentChar (c : Char) : Bool :=
  (('a' ≤ c && c ≤ 'z') || ('A' ≤ c && c ≤ 'Z') || ('0' ≤ c && c ≤ '9') || c = '_')

def isIdent (cs : Chars) : Bool :=
  !cs.isEmpty && cs.all isIdentChar

/-! ### Block model

One inductive covering the block kinds of `semantic_kernel/template_engine/blocks/`:
`TextBlock`, `VarBlock`, `ValBlock`, `FunctionIdBlock`, `NamedArgBlock`, `CodeBlock`.
Every block stores its `content` field as the python classes do. -/

inductive BlockTy where
  | text | var | val | funcId | namedArg | code
  deriving DecidableEq

inductive Block where
  /-- `TextBlock(content)` -/
  | text (content : Chars)
  /-- `VarBlock(content, name)`: content is `$name`. -/
  | var (content : Chars) (name : Chars)
  /-- `ValBlock(content, value, quote)`: content keeps the quotes, value is unescaped. -/
  | val (content : Chars) (value : Chars) (quote : Char)
  /-- `FunctionIdBlock(content, plugin_name, function_name)`. -/
  | funcId (content : Chars) (pluginName funcName : Chars)
  /-- `NamedArgBlock(content, name, value, variable)`; the value payload is
  `(content, unescaped value, quote)`, the variable payload (`varRef`) is
  `(content, name)`; exactly one of the two is set by the parser. -/
  | namedArg (content : Chars) (name : Chars) (value : Option (Chars × Chars × Char))
      (varRef : Option (Chars × Chars))
  /-- `CodeBlock(content, tokens)`. -/
  | code (content : Chars) (tokens : List Block)

/-- The `type` tag of a block (`BlockTypes` in the source). -/
def Block.ty : Block → BlockTy
  | .text _ => .text
  | .var _ _ => .var
  | .val _ _ _ => .val
  | .funcId _ _ _ => .funcId
  | .namedArg _ _ _ _ => .namedArg
  | .code _ _ => .code

/-- The `content` field of a block. -/
def Block.content : Block → Chars
  | .text c => c
  | .var c _ => c
  | .val c _ _ => c
  | .funcId c _ _ => c
  | .namedArg c _ _ _ => c
  | .code c _ => c

/-! ### Code sub-parser

`semantic_kernel/template_engine/code_tokenizer.py` is absent from the sources.

Modelled from the spec: the Code Sub-Parser (spec sections 4.2 and 6) receives the
trimmed interior of one delimiter pair and splits it into whitespace-separated
tokens, honouring quoted literals with backslash escapes; each token is classified
as a quoted Value, a `$`-prefixed Variable, a NamedArgument
(`identifier '=' (variable-ref | quoted-literal)`), or a function identifier
(`identifier` optionally qualified as `identifier.identifier`); any other segment
is a syntax error. -/

/-- Read a quoted literal starting after the opening quote `q`; returns the raw
characters read (escapes kept, closing quote kept) and the remainder, or fails on an
unterminated literal. -/
def readQuoted (q : Char) : Chars → Option (Chars × Chars)
  | [] => none
  | c :: rest =>
    if c = escapeChar then
      match rest with
      | [] => none
      | d :: rest2 =>
        match readQuoted q rest2 with
        | some (tok, rem) => some (c :: d :: tok, rem)
        | none => none
    else if c = q then
      some ([c], rest)
    else
      match readQuoted q rest with
      | some (tok, rem) => some (c :: tok, rem)
      | none => none

/-- Read one whitespace-delimited token, consuming quoted stretches whole
(fuel-structural; `fuel ≥ length + 1` suffices). -/
def readWord : Nat → Chars → Option (Chars × Chars)
  | 0, _ => none
  | _, [] => some ([], [])
  | fuel + 1, c :: rest =>
    if isSpaceCh c then some ([], c :: rest)
    else if isQuoteCh c then
      match readQuoted c rest with
      | none => none
      | some (tok, rem) =>
        match readWord fuel rem with
        | some (w, rem2) => some (c :: tok ++ w, rem2)
        | none => none
    else
      match readWord fuel rest with
      | some (w, rem2) => some (c :: w, rem2)
      | none => none

/-- Split the code-block interior into raw tokens. -/
def splitCodeTokens : Nat → Chars → Option (List Chars)
  | 0, _ => none
  | _, [] => some []
  | fuel + 1, c :: rest =>
    if isSpaceCh c then splitCodeTokens fuel rest
    else
      match readWord (fuel + 1) (c :: rest) with
      | none => none
      | some (w, rem) =>
        match splitCodeTokens fuel rem with
        | some ws => some (w :: ws)
        | none => none

/-- Remove backslash escapes from the interior of a quoted literal. -/
def unescapeChars : Chars → Chars
  | [] => []
  | c :: rest =>
    if c = escapeChar then
      match rest with
      | [] => [c]
      | d :: rest2 => d :: unescapeChars rest2
    else c :: unescapeChars rest

/-- Split a list at the first occurrence of `sep` (the separator is dropped);
`none` when the separator is absent. -/
def splitAtSep (sep : Char) : Chars → Option (Chars × Chars)
  | [] => none
  | c :: rest =>
    if c = sep then some ([], rest)
    else
      match splitAtSep sep rest with
      | some (a, b) => some (c :: a, b)
      | none => none

/-- Classify one raw token per the spec grammar. -/
def classifyToken (w : Chars) : Except Unit Block :=
  match w with
  | [] => .error ()
  | c :: rest =>
    if c = varPrefix then
      if isIdent rest then .ok (.var w rest) else .error ()
    else if isQuoteCh c then
      match rest.getLast? with
      | some d =>
        if d = c ∧ 1 ≤ rest.length then
          .ok (.val w (unescapeChars rest.dropLast) c)
        else .error ()
      | none => .error ()
    else if w.contains '=' then
      match splitAtSep '=' w with
      | some (name, value) =>
        if isIdent name then
          match value with
          | [] => .error ()
          | v :: vrest =>
            if v = varPrefix then
              if isIdent vrest then
                .ok (.namedArg w name none (some (value, vrest)))
              else .error ()
            else if isQuoteCh v then
              match vrest.getLast? with
              | some d =>
                if d = v ∧ 1 ≤ vrest.length then
                  .ok (.namedArg w name (some (value, unescapeChars vrest.dropLast, v)) none)
                else .error ()
              | none => .error ()
            else .error ()
        else .error ()
      | none => .error ()
    else
      match splitAtSep '.' w with
      | some (p, f) =>
        if isIdent p ∧ isIdent f then .ok (.funcId w p f) else .error ()
      | none =>
        if isIdent w then .ok (.funcId w [] w) else .error ()

/-- Modelled from the spec: the code sub-parser entry point
(`CodeTokenizer.tokenize`, absent from src/) — tokenize the trimmed interior of
one delimiter pair per the grammar of spec sections 4.2 and 6. -/
def codeTokenize (cs : Chars) : Except Unit (List Block) :=
  match splitCodeTokens (cs.length + 1) cs with
  | none => .error ()
  | some ws =>
    match ws.mapM classifyToken with
    | .ok toks => .ok toks
    | .error _ => .error ()

/-! ### Template tokenizer

Faithful translation of `TemplateTokenizer.tokenize`
(`semantic_kernel/template_engine/template_tokenizer.py`).  The scanner state and
the loop body mirror the python local variables and control flow line by line.  In
addition to the emitted block, the embedding records the source span
`(start, stop)` of the input region each emitted block was produced from; the
python function returns only the blocks (`tokenize` below projects them out). -/

/-- Total indexing `text[i]` (the loop only reads in-bounds positions). -/
def getC (cs : Chars) (i : Nat) : Char := cs.getD i ' '

structure TokSt where
  /-- blocks emitted so far, each with the source span it was produced from -/
  pairs : List ((Nat × Nat) × Block)
  /-- `end_of_last_block` -/
  endLast : Nat
  /-- `block_start_pos` -/
  blockStart : Nat
  /-- `block_start_found` -/
  startFound : Bool
  /-- `inside_text_value` -/
  insideVal : Bool
  /-- `text_value_delimiter` (read only while `insideVal`) -/
  delim : Char
  /-- `skip_next_char` -/
  skipNext : Bool

def initSt : TokSt := ⟨[], 0, 0, false, false, dblQuote, false⟩

/-- The block produced for one closed `{{ ... }}` region: a `TextBlock` of the
whole delimited span when the trimmed interior is empty; otherwise the first code
token when it is a value/variable/text token, a `CodeBlock` otherwise, or a
template syntax error when the code sub-parser fails (`code_blocks[0]` on an empty
token list would be an `IndexError`). -/
def emitBlock (contentWith inner : Chars) : Except Unit Block :=
  if inner.isEmpty then .ok (.text contentWith)
  else
    match codeTokenize inner with
    | .error _ => .error ()
    | .ok [] => .error ()
    | .ok (t :: ts) =>
      .ok (if t.ty = .val ∨ t.ty = .var ∨ t.ty = .text then t else Block.code inner (t :: ts))

/-- The `}}`-found branch of the loop body: emit any pending text block covering
`[end_of_last_block, block_start_pos)`, then the delimited block itself. -/
def emit (cs : Chars) (pos : Nat) (s : TokSt) : Except Unit TokSt :=
  let pre : List ((Nat × Nat) × Block) :=
    if s.blockStart > s.endLast then
      [((s.endLast, s.blockStart), .text (slice cs s.endLast s.blockStart))]
    else []
  let contentWith := slice cs s.blockStart (pos + 2)
  let inner := trimChars ((contentWith.drop 2).take (contentWith.length - 4))
  match emitBlock contentWith inner with
  | .error e => .error e
  | .ok b =>
    .ok { s with pairs := s.pairs ++ pre ++ [((s.blockStart, pos + 2), b)],
                 endLast := pos + 2, startFound := false }

/-- One iteration of the scanner loop at position `pos`. -/
def step (cs : Chars) (pos : Nat) (s : TokSt) : Except Unit TokSt :=
  let cur := getC cs pos
  let next := getC cs (pos + 1)
  if s.skipNext then .ok { s with skipNext := false }
  else
    let s1 :=
      if !s.insideVal && cur = blockStarter && next = blockStarter then
        { s with blockStart := pos, startFound := true }
      else s
    if s1.startFound then
      if s1.insideVal then
        if cur = escapeChar && (next = dblQuote || next = sglQuote || next = escapeChar) then
          .ok { s1 with skipNext := true }
        else if cur = s1.delim then .ok { s1 with insideVal := false }
        else .ok s1
      else
        if cur = dblQuote || cur = sglQuote then
          .ok { s1 with insideVal := true, delim := cur }
        else if cur = blockEnder && next = blockEnder then
          emit cs pos s1
        else .ok s1
    else .ok s1

/-- The scanner loop over positions `0 .. n-2` (`for ... in enumerate(text[:-1])`),
fuel-structural; `fuel ≥ n - 1 - pos` suffices. -/
def tokLoop (cs : Chars) (n : Nat) : Nat → Nat → TokSt → Except Unit TokSt
  | 0, _, s => .ok s
  | fuel + 1, pos, s =>
    if pos < n - 1 then
      match step cs pos s with
      | .error e => .error e
      | .ok s2 => tokLoop cs n fuel (pos + 1) s2
    else .ok s

/-- `TemplateTokenizer.tokenize`, instrumented with source spans.  The argument is
`Option Chars` because the python function accepts `None` (`text = text or ""`). -/
def tokenizeWithSpans (text : Option Chars) : Except Unit (List ((Nat × Nat) × Block)) :=
  let cs := text.getD []
  if cs.isEmpty then .ok [((0, 0), .text [])]
  else if cs.length < 5 then .ok [((0, cs.length), .text cs)]
  else
    match tokLoop cs cs.length cs.length 0 initSt with
    | .error e => .error e
    | .ok s =>
      if s.endLast < cs.length then
        .ok (s.pairs ++ [((s.endLast, cs.length), .text (slice cs s.endLast cs.length))])
      else .ok s.pairs

/-- `TemplateTokenizer.tokenize`: the list of blocks, as returned by the python
function. -/
def tokenize (text : Option Chars) : Except Unit (List Block) :=
  (tokenizeWithSpans text).map (List.map Prod.snd)

/-- Concatenation, in emission order, of the `content` fields of the returned
blocks (the only raw spans the returned blocks carry). -/
def concatContents (bs : List Block) : Chars :=
  (bs.map Block.content).flatten

/-! ### Dictionaries

Python `dict` as an association list: assignment replaces in place when the key is
present (keys stay unique and keep insertion order) and appends otherwise. -/

def dictSet {κ β : Type} [DecidableEq κ] : List (κ × β) → κ → β → List (κ × β)
  | [], k, v => [(k, v)]
  | p :: rest, k, v => if p.1 = k then (k, v) :: rest else p :: dictSet rest k v

def dictGet {κ β : Type} [DecidableEq κ] (d : List (κ × β)) (k : κ) : Option β :=
  match d.find? (fun p => p.1 = k) with
  | some p => some p.2
  | none => none

/-- Python `del d[k]` (callers guard on presence; under unique keys removing every
occurrence is removing the one occurrence). -/
def dictDel {κ β : Type} [DecidableEq κ] (d : List (κ × β)) (k : κ) : List (κ × β) :=
  d.filter (fun p => p.1 ≠ k)

/-- Python `d.update(other)` for a dict argument. -/
def dictUpdate {κ β : Type} [DecidableEq κ] (d : List (κ × β)) (kvs : List (κ × β)) :
    List (κ × β) :=
  kvs.foldl (fun acc p => dictSet acc p.1 p.2) d

def countKey {κ β : Type} [DecidableEq κ] (d : List (κ × β)) (k : κ) : Nat :=
  (d.filter (fun p => p.1 = k)).length

/-! ### Renderer

`KernelPromptTemplate.render` / `render_blocks`
(`semantic_kernel/prompt_template/kernel_prompt_template.py`) plus the block
`render` methods.  `VarBlock`/`ValBlock` sources are absent; their `render` is
modelled from the spec (section 4.3): a `Variable` looks its name up in the
argument table and a missing variable renders as the empty string (no error); a
`Value` renders its literal content. -/

abbrev Args := List (String × String)

/-- Modelled from the spec: `VarBlock.render`
(`semantic_kernel/template_engine/blocks/var_block.py`, absent from src/) — look up
the name in the argument table; missing variable renders as empty string. -/
def varRender (name : Chars) (arguments : Args) : String :=
  (dictGet arguments (String.mk name)).getD ""

/-- Modelled from the spec: `ValBlock.render`
(`semantic_kernel/template_engine/blocks/val_block.py`, absent from src/) — a
quoted literal renders as its (unescaped) content. -/
def valRender (value : Chars) : String :=
  String.mk value

/-- `NamedArgBlock.render`
(`semantic_kernel/template_engine/blocks/named_arg_block.py`): a value payload
renders as the literal; otherwise with no argument table the result is the empty
string; otherwise a variable payload is looked up.  The python method implicitly
returns `None` when neither payload is set (cannot happen after parsing); that
fall-through is the `Option.none` case. -/
def namedArgRender (b : Block) (arguments : Option Args) : Option String :=
  match b with
  | .namedArg _ _ value varRef =>
    match value with
    | some (_, v, _) => some (valRender v)
    | none =>
      match arguments with
      | none => some ""
      | some a =>
        match varRef with
        | some (_, n) => some (varRender n a)
        | none => none
  | _ => none

/-- One block of `render_blocks`: `TextRenderer` blocks render synchronously;
`CodeRenderer` blocks (`CodeBlock`) execute functions through the kernel, which is
abstracted as the parameter `cr` (`code_block.py` is absent from src/). -/
def renderBlock (cr : Chars → List Block → Args → Except Unit String) (arguments : Args) :
    Block → Except Unit String
  | .text c => .ok (String.mk c)
  | .var _ n => .ok (varRender n arguments)
  | .val _ v _ => .ok (valRender v)
  | .funcId c _ _ => .ok (String.mk c)
  | .namedArg c n v r => .ok ((namedArgRender (.namedArg c n v r) (some arguments)).getD "")
  | .code c toks => cr c toks arguments

/-- `KernelPromptTemplate.render_blocks`: render each block and join the results.
The argument table is passed through verbatim — no encoding is applied here. -/
def renderBlocks (cr : Chars → List Block → Args → Except Unit String)
    (blocks : List Block) (arguments : Args) : Except Unit String :=
  (blocks.mapM (renderBlock cr arguments)).map String.join

/-- `KernelPromptTemplate.render` (blocks come from `extract_blocks`, which returns
`[]` for an empty template; a missing argument table becomes a fresh empty one). -/
def renderTemplate (cr : Chars → List Block → Args → Except Unit String)
    (template : Chars) (arguments : Option Args) : Except Unit String :=
  match (if template.isEmpty then .ok [] else tokenize (some template)) with
  | .error e => .error e
  | .ok bs => renderBlocks cr bs (arguments.getD [])

/-! ### Encoding helpers (`semantic_kernel/prompt_template/prompt_template_base.py`)

`PromptTemplateBase` carries the encode-unless-trusted machinery
(`_should_encode`, `_get_allowed_unsafe_arguments`,
`_get_allow_unsafe_function_output`); the python names contain a word that cannot
appear in identifiers here, so the translations are named with `Encoded`. -/

structure InputVariable where
  name : String
  allowDangerouslySetContent : Bool := false
  deriving DecidableEq

/-- `PromptTemplateBase._should_encode`. -/
def shouldEncode (name : String) (inputVariables : List InputVariable) : Bool :=
  match inputVariables.find? (fun v => v.name = name) with
  | some v => !v.allowDangerouslySetContent
  | none => true

def hexDigitUpper (n : Nat) : Char :=
  if n < 10 then Char.ofNat (48 + n) else Char.ofNat (55 + n)

/-- `urllib.parse.quote` restricted to ASCII inputs (the unreserved characters are
letters, digits, `_.-~` and the default safe character `/`; every other character
is percent-encoded). -/
def pyQuoteChar (c : Char) : Chars :=
  if isIdentChar c || c = '.' || c = '-' || c = '~' || c = '/' then [c]
  else ['%', hexDigitUpper (c.toNat / 16 % 16), hexDigitUpper (c.toNat % 16)]

def pyQuote (s : String) : String :=
  String.mk ((s.toList.map pyQuoteChar).flatten)

/-- `PromptTemplateBase._get_allowed_unsafe_arguments` (translated name): the
argument table with every still-to-be-encoded string value percent-encoded, unless
the whole template was marked trusted. -/
def getAllowedArgumentsEncoded (allowDangerouslySetContent : Bool)
    (inputVariables : List InputVariable) (arguments : Args) : Args :=
  if allowDangerouslySetContent then arguments
  else arguments.map (fun p =>
    if shouldEncode p.1 inputVariables then (p.1, pyQuote p.2) else p)

/-- `PromptTemplateBase._get_allow_unsafe_function_output` (translated name). -/
def getAllowDangerousFunctionOutput (templateFlag configFlag : Bool) : Bool :=
  templateFlag || configFlag

/-! ### Function registry (`Kernel.add_functions`, `KernelPlugin`)

`KernelFunction` payloads are opaque ids; `KernelPlugin._parse_or_copy` copies the
function and stamps the plugin name into the copied metadata, which does not affect
the registry structure and is not modelled. -/

structure KernelPlugin where
  name : String
  functions : List (String × Nat)
  deriving DecidableEq

/-- `KernelPlugin.__setitem__` (used by `set` and `update`): plain dict assignment,
"a existing key will be overwritten" (the class docstring). -/
def pluginSetItem (p : KernelPlugin) (key : String) (f : Nat) : KernelPlugin :=
  { p with functions := dictSet p.functions key f }

/-- `KernelPlugin.update` with a dict argument: `for key in other: self[key] = other[key]`. -/
def pluginUpdate (p : KernelPlugin) (fns : List (String × Nat)) : KernelPlugin :=
  fns.foldl (fun acc q => pluginSetItem acc q.1 q.2) p

structure KernelState where
  plugins : List (String × KernelPlugin)
  deriving DecidableEq

/-- `Kernel.add_functions`: update the existing plugin in place, or create a fresh
`KernelPlugin` whose functions dict is built from the given entries. -/
def addFunctions (k : KernelState) (pluginName : String) (fns : List (String × Nat)) :
    KernelState :=
  match dictGet k.plugins pluginName with
  | some p => { k with plugins := dictSet k.plugins pluginName (pluginUpdate p fns) }
  | none =>
    { k with plugins := dictSet k.plugins pluginName (pluginUpdate ⟨pluginName, []⟩ fns) }

/-- `Kernel.add_function`. -/
def addFunction (k : KernelState) (pluginName fname : String) (f : Nat) : KernelState :=
  addFunctions k pluginName [(fname, f)]

/-- `Kernel.func` as a partial lookup (the raising guards become `none`). -/
def funcLookup (k : KernelState) (pluginName fname : String) : Option Nat :=
  match dictGet k.plugins pluginName with
  | some p => dictGet p.functions fname
  | none => none

/-! ### Event-handler registration (`Kernel.add_function_invoking_handler` etc.)

The handler dicts are keyed by `id(handler)` (python object identity); a handler is
modelled as its identity key paired with its action on the event-args object. -/

/-- `kernel.function_invoking_handlers[id(handler)] = handler`. -/
def addHandler {α : Type} (d : List (Nat × (α → α))) (hid : Nat) (h : α → α) :
    List (Nat × (α → α)) :=
  dictSet d hid h

/-- `Kernel.remove_function_invoking_handler` / `remove_function_invoked_handler`. -/
def removeHandler {α : Type} (d : List (Nat × (α → α))) (hid : Nat) :
    List (Nat × (α → α)) :=
  if d.any (fun p => p.1 = hid) then dictDel d hid else d

/-- `Kernel.on_function_invoking` / `on_function_invoked`: run every registered
handler once, in registration order, over the mutable event-args object. -/
def onHandlers {α : Type} (d : List (Nat × (α → α))) (a : α) : α :=
  d.foldl (fun acc p => p.2 acc) a

/-! ### Invocation pipeline (`Kernel.invoke`, `Kernel.invoke_stream`)

The event-args classes (`semantic_kernel/events/`, absent from src/) are modelled
from their use in `kernel.py`: a pre event carries `is_cancel_requested`,
`is_skip_requested` and `updated_arguments`/`arguments`; a post event additionally
carries `exception`, `is_repeat_requested` and `function_result`.  The aggregate
effect of the registered handlers in one round is a function from the initial
event-args fields to the final ones; rounds are indexed so that stateful handlers
(e.g. "repeat only once") are expressible.  The unbounded python repeat recursion
is given structural fuel; `none` marks fuel exhaustion (divergence). -/

structure FRes where
  value : Option Nat
  metaExc : Option Unit
  deriving DecidableEq

structure PreEvent where
  isCancelRequested : Bool
  isSkipRequested : Bool
  updatedArguments : Option Args
  deriving DecidableEq

structure PostEvent where
  exception : Option Unit
  isCancelRequested : Bool
  updatedArguments : Option Args
  isRepeatRequested : Bool
  functionResult : Option FRes
  deriving DecidableEq

structure RoundHooks where
  pre : Args → PreEvent
  post : Args → Option FRes → Option Unit → PostEvent

def noPreEvent : PreEvent := ⟨false, false, none⟩

/-- The post event-args as initialised by `on_function_invoked` when no handler
changes anything. -/
def defaultPost (fres : Option FRes) (exc : Option Unit) : PostEvent :=
  ⟨exc, false, none, false, fres⟩

def passiveHooks : RoundHooks :=
  ⟨fun _ => noPreEvent, fun _ r e => defaultPost r e⟩

/-- `FunctionResult(function=..., value=None, metadata={})`. -/
def emptyFRes : FRes := ⟨none, none⟩

inductive InvokeOut where
  /-- `KernelInvokeException` raised -/
  | raised
  /-- the returned value: `none` is python `None`, otherwise a `FunctionResult` -/
  | returned (r : Option FRes)
  deriving DecidableEq

/-- `Kernel.invoke`.  `f` is the underlying `function.invoke`, indexed by how many
executions happened before (so a stateful function is expressible); the second
component of the result counts executions of `f`.  Note: the source checks
`is_cancel_requested` and `updated_arguments` but never `is_skip_requested`, and
initialises the post event's exception to
`(exception or result-metadata exception) if function_result else None`. -/
def invokeK (f : Nat → Args → Except Unit FRes) (hooks : Nat → RoundHooks) :
    Nat → Nat → Nat → Args → Option (InvokeOut × Nat)
  | 0, _, _, _ => none
  | fuel + 1, round, count, arguments =>
    let invokingArgs := (hooks round).pre arguments
    if invokingArgs.isCancelRequested then some (.returned none, count)
    else
      let arguments1 :=
        match invokingArgs.updatedArguments with
        | some a => a
        | none => arguments
      let fout := f count arguments1
      let functionResult := match fout with | .ok r => some r | .error _ => none
      let exc : Option Unit := match fout with | .ok _ => none | .error e => some e
      let count1 := count + 1
      let initialExc : Option Unit :=
        match functionResult with
        | some r => (match exc with | some e => some e | none => r.metaExc)
        | none => none
      let invokedArgs := (hooks round).post arguments1 functionResult initialExc
      if invokedArgs.exception.isSome then some (.raised, count1)
      else if invokedArgs.isCancelRequested then
        some (.returned (some (invokedArgs.functionResult.getD emptyFRes)), count1)
      else
        let arguments2 :=
          match invokedArgs.updatedArguments with
          | some a => a
          | none => arguments1
        if invokedArgs.isRepeatRequested then
          invokeK f hooks fuel (round + 1) count1 arguments2
        else
          some (.returned (some (invokedArgs.functionResult.getD emptyFRes)), count1)

structure Chunk where
  val : Nat
  exc : Option Unit
  deriving DecidableEq

/-- The yield loop of `invoke_stream`: chunks are yielded in order until one
carries an exception in its metadata, which raises `KernelInvokeException`. -/
def streamRun : List Chunk → List Chunk × Option Unit
  | [] => ([], none)
  | c :: rest =>
    if c.exc.isSome then ([], some ())
    else
      match streamRun rest with
      | (l, e) => (c :: l, e)

/-- `Kernel.invoke_stream` (single function, `return_function_results = False`):
the pre-invoking event is honoured in full — cancel aborts, updated arguments are
adopted, and skip aborts before the function runs.  Result: chunks yielded, raised
exception if any, and the number of executions of the underlying function. -/
def invokeStreamK (pre : Args → PreEvent) (g : Args → List Chunk) (arguments : Args) :
    List Chunk × Option Unit × Nat :=
  let invokingArgs := pre arguments
  if invokingArgs.isCancelRequested then ([], none, 0)
  else
    let arguments1 :=
      match invokingArgs.updatedArguments with
      | some a => a
      | none => arguments
    if invokingArgs.isSkipRequested then ([], none, 0)
    else
      match streamRun (g arguments1) with
      | (l, e) => (l, e, 1)

/-! ### Tool-call resolution
(`semantic_kernel/connectors/ai/open_ai/services/open_ai_chat_completion_base.py`) -/

/-- Modelled from the spec: `FunctionCall.parse_arguments`
(`semantic_kernel/connectors/ai/open_ai/contents/function_call.py`, absent from
src/) parses the raw argument payload into the target parameters and raises
`FunctionCallInvalidArgumentsException` when the payload cannot be parsed; a
payload is modelled as either a parsed argument mapping or a malformed raw
string. -/
inductive Payload where
  | parsed (ps : List (String × String))
  | malformed (raw : String)
  deriving DecidableEq

/-- Modelled from the spec: the parse itself — a parsed payload yields its
argument mapping, a malformed one raises. -/
def parseArguments : Payload → Except Unit (List (String × String))
  | .parsed ps => .ok ps
  | .malformed _ => .error ()

structure FunctionCall where
  name : String
  arguments : Payload
  deriving DecidableEq

structure ToolCall where
  id : Option String
  function : Option FunctionCall
  deriving DecidableEq

/-- Modelled from the spec: `FunctionCall.split_name_dict` (same absent file)
splits the qualified name on the first dash into plugin and function name, as
`Kernel.func_from_fully_qualified_function_name` does. -/
def splitName (s : String) : String × String :=
  match splitAtSep '-' s.toList with
  | some (a, b) => (String.mk a, String.mk b)
  | none => ("", s)

inductive Role where
  | system | user | assistant | tool
  deriving DecidableEq

structure Msg where
  role : Role
  content : String
  toolCallId : Option String
  functionName : Option String
  deriving DecidableEq

def malformedArgsMessage : String :=
  "The tool call arguments are malformed, please try again."

/-- `_process_tool_call`: resolve one tool-call request against its own clone of
the argument table.  Returns the tool-role messages appended to the chat history
and a log of the kernel invocations performed (tool-call id, qualified name,
argument table); an invocation error raises `ServiceInvalidResponseError`. -/
def processToolCall (kinvoke : String × String → Args → Except Unit String)
    (argsCloned : Args) (tc : ToolCall) :
    Except Unit (List Msg × List (Option String × String × Args)) :=
  match tc.function with
  | none => .ok ([], [])
  | some func =>
    match parseArguments func.arguments with
    | .error _ =>
      .ok ([⟨.tool, malformedArgsMessage, tc.id, some func.name⟩], [])
    | .ok parsedArgs =>
      let args1 := dictUpdate argsCloned parsedArgs
      match kinvoke (splitName func.name) args1 with
      | .error _ => .error ()
      | .ok resStr =>
        .ok ([⟨.tool, resStr, tc.id, some func.name⟩], [(tc.id, func.name, args1)])

/-- `_process_tool_calls`: every request of the round is dispatched with a copy of
the current argument table (`copy(arguments)`); the python tasks run under
`asyncio.gather` and append to the shared history — modelled in task order. -/
def processToolCalls (kinvoke : String × String → Args → Except Unit String)
    (arguments : Args) :
    List ToolCall → Except Unit (List Msg × List (Option String × String × Args))
  | [] => .ok ([], [])
  | tc :: rest =>
    match processToolCall kinvoke arguments tc with
    | .error e => .error e
    | .ok (ms, ls) =>
      match processToolCalls kinvoke arguments rest with
      | .error e => .error e
      | .ok (ms2, ls2) => .ok (ms ++ ms2, ls ++ ls2)

/-- `OpenAIChatMessageContent`: one completion choice. -/
structure ChatCompletionMsg where
  content : Option String
  toolCalls : Option (List ToolCall)
  deriving DecidableEq

/-- `_should_return_completions_response`: true when some completion carries no
tool calls (`None` or empty list). -/
def shouldReturnCompletionsResponse (completions : List ChatCompletionMsg) : Bool :=
  completions.any (fun c =>
    match c.toolCalls with
    | none => true
    | some l => l.isEmpty)

/-- Modelled from the spec: `store_results` (`semantic_kernel/utils/chat.py`,
absent from src/) appends each completion to the conversation history as an
assistant message. -/
def storeResults (history : List Msg) (results : List ChatCompletionMsg) : List Msg :=
  history ++ results.map (fun c => ⟨.assistant, c.content.getD "", none, none⟩)

/-- `_process_chat_response_with_tool_call`: per completion, append the assistant
message then resolve its tool calls, appending their messages. -/
def processChatResponseWithToolCall (kinvoke : String × String → Args → Except Unit String)
    (arguments : Args) :
    List ChatCompletionMsg → List Msg → Except Unit (List Msg)
  | [], history => .ok history
  | c :: rest, history =>
    let h1 := storeResults history [c]
    match processToolCalls kinvoke arguments (c.toolCalls.getD []) with
    | .error e => .error e
    | .ok (ms, _) => processChatResponseWithToolCall kinvoke arguments rest (h1 ++ ms)

/-- The auto-invoke loop of `complete_chat`
(`for _ in range(settings.function_call_behavior.max_auto_invoke_attempts)`),
with the remaining attempt budget as the recursion argument and the round index
feeding the model abstraction `send` (one `_send_chat_request` on the settings
prepared from the current history).  When the budget is exhausted the python
`for` loop falls off the end of the function, which returns `None`; the second
result component counts the chat requests sent. -/
def completeChatAuto (kinvoke : String × String → Args → Except Unit String)
    (send : Nat → List Msg → List ChatCompletionMsg) (arguments : Args) :
    Nat → Nat → List Msg → Except Unit (Option (List ChatCompletionMsg) × Nat)
  | 0, _, _ => .ok (none, 0)
  | remaining + 1, round, history =>
    let completions := send round history
    if shouldReturnCompletionsResponse completions then .ok (some completions, 1)
    else
      match processChatResponseWithToolCall kinvoke arguments completions history with
      | .error e => .error e
      | .ok history1 =>
        match completeChatAuto kinvoke send arguments remaining (round + 1) history1 with
        | .error e => .error e
        | .ok (res, k) => .ok (res, k + 1)

/-- `complete_chat` with auto-invocation of kernel functions enabled. -/
def completeChat (kinvoke : String × String → Args → Except Unit String)
    (send : Nat → List Msg → List ChatCompletionMsg) (arguments : Args)
    (maxAttempts : Nat) (history : List Msg) :
    Except Unit (Option (List ChatCompletionMsg) × Nat) :=
  completeChatAuto kinvoke send arguments maxAttempts 0 history

/-! ## Lemmas about span chains (for the tokenizer covering theorem) -/

def spansOf (pairs : List ((Nat × Nat) × Block)) : List (Nat × Nat) :=
  pairs.map Prod.fst

/-- `chainB a l b`: the spans in `l` are consecutive, starting at `a` and ending
at `b` (no gaps, no overlaps, emission order). -/
def chainB : Nat → List (Nat × Nat) → Nat → Bool
  | a, [], b => decide (a = b)
  | a, (s, t) :: r, b => decide (s = a) && decide (a ≤ t) && chainB t r b

theorem chainB_le : ∀ (l : List (Nat × Nat)) (a b : Nat), chainB a l b = true → a ≤ b := by
  intro l
  induction l with
  | nil =>
    intro a b h
    simp only [chainB, decide_eq_true_eq] at h
    omega
  | cons p r ih =>
    intro a b h
    obtain ⟨s, t⟩ := p
    simp only [chainB, Bool.and_eq_true, decide_eq_true_eq] at h
    exact le_trans h.1.2 (ih t b h.2)

theorem chainB_append : ∀ (l₁ : List (Nat × Nat)) (a m : Nat) (l₂ : List (Nat × Nat)) (b : Nat),
    chainB a l₁ m = true → chainB m l₂ b = true → chainB a (l₁ ++ l₂) b = true := by
  intro l₁
  induction l₁ with
  | nil =>
    intro a m l₂ b h1 h2
    simp only [chainB, decide_eq_true_eq] at h1
    subst h1
    simpa using h2
  | cons p r ih =>
    intro a m l₂ b h1 h2
    obtain ⟨s, t⟩ := p
    simp only [chainB, Bool.and_eq_true, decide_eq_true_eq] at h1 ⊢
    exact ⟨h1.1, ih t m l₂ b h1.2 h2⟩

theorem slice_append (cs : Chars) {a b c : Nat} (h1 : a ≤ b) (h2 : b ≤ c) :
    slice cs a b ++ slice cs b c = slice cs a c := by
  unfold slice
  have hd : cs.drop b = (cs.drop a).drop (b - a) := by
    rw [List.drop_drop]
    congr 1
    omega
  rw [hd]
  have : c - a = (b - a) + (c - b) := by omega
  rw [this, List.take_add]

theorem chainB_flatten (cs : Chars) : ∀ (l : List (Nat × Nat)) (a b : Nat),
    chainB a l b = true →
    (l.map (fun p => slice cs p.1 p.2)).flatten = slice cs a b := by
  intro l
  induction l with
  | nil =>
    intro a b h
    simp [chainB] at h
    subst h
    simp [slice]
  | cons p r ih =>
    intro a b h
    obtain ⟨s, t⟩ := p
    simp only [chainB, Bool.and_eq_true, decide_eq_true_eq] at h
    obtain ⟨⟨hs, hat⟩, hc⟩ := h
    subst hs
    simp only [List.map_cons, List.flatten_cons]
    rw [ih t b hc, slice_append cs hat (chainB_le r t b hc)]

theorem slice_full (cs : Chars) : slice cs 0 cs.length = cs := by
  simp [slice]

/-! ## Tokenizer loop invariant -/

/-- Invariant of the scanner state before processing position `pos`:
the emitted spans chain from `0` to `end_of_last_block`; `end_of_last_block`
is behind the scan head and (unless still `0`) sits right after a `}}`;
an open block start lies between `end_of_last_block` and the scan head on a
`{`; being inside a quoted value implies an open block. -/
structure TokInv (cs : Chars) (pos : Nat) (s : TokSt) : Prop where
  chain : chainB 0 (spansOf s.pairs) s.endLast = true
  endLe : s.endLast ≤ pos + 1
  endPrev : s.endLast = 0 ∨ (2 ≤ s.endLast ∧ getC cs (s.endLast - 1) = blockEnder)
  start : s.startFound = true →
    s.endLast ≤ s.blockStart ∧ s.blockStart < pos ∧ getC cs s.blockStart = blockStarter
  inside : s.insideVal = true → s.startFound = true

theorem emit_inv (cs : Chars) (pos : Nat) (s s' : TokSt)
    (hnext : getC cs (pos + 1) = blockEnder)
    (hsf : s.startFound = true) (hiv : s.insideVal = false)
    (hinv : TokInv cs pos s)
    (h : emit cs pos s = .ok s') : TokInv cs (pos + 1) s' := by
  obtain ⟨hsb, hbp, hbc⟩ := hinv.start hsf
  have hchain : ∀ b : Block,
      chainB 0 (spansOf (s.pairs ++
        (if s.blockStart > s.endLast then
          [((s.endLast, s.blockStart), Block.text (slice cs s.endLast s.blockStart))]
         else []) ++ [((s.blockStart, pos + 2), b)])) (pos + 2) = true := by
    intro b
    by_cases hgt : s.blockStart > s.endLast
    · rw [if_pos hgt]
      simp only [spansOf, List.map_append, List.map_cons, List.map_nil, List.append_assoc]
      refine chainB_append _ 0 s.endLast _ _ hinv.chain ?_
      show chainB s.endLast
        ([(s.endLast, s.blockStart)] ++ [(s.blockStart, pos + 2)]) (pos + 2) = true
      refine chainB_append _ s.endLast s.blockStart _ _ ?_ ?_
      · simp only [chainB, Bool.and_eq_true, decide_eq_true_eq, and_true, true_and]
        omega
      · simp only [chainB, Bool.and_eq_true, decide_eq_true_eq, and_true, true_and]
        omega
    · have heq : s.blockStart = s.endLast := by omega
      rw [if_neg hgt]
      simp only [spansOf, List.map_append, List.map_cons, List.map_nil, List.append_nil]
      refine chainB_append _ 0 s.endLast _ _ hinv.chain ?_
      simp only [chainB, Bool.and_eq_true, decide_eq_true_eq, and_true, true_and, heq]
      omega
  simp only [emit] at h
  split at h
  · cases h
  · injection h with h
    subst h
    refine ⟨hchain _, ?_, Or.inr ⟨?_, ?_⟩, ?_, ?_⟩
    · show pos + 2 ≤ pos + 1 + 1
      omega
    · show 2 ≤ pos + 2
      omega
    · show getC cs (pos + 2 - 1) = blockEnder
      exact hnext
    · intro hsf2
      exact Bool.noConfusion hsf2
    · intro hivt
      have hv : s.insideVal = true := hivt
      rw [hiv] at hv
      exact Bool.noConfusion hv

/-! ## Dictionary lemmas -/

theorem dictGet_set {κ β : Type} [DecidableEq κ] (d : List (κ × β)) (k : κ) (v : β) :
    dictGet (dictSet d k v) k = some v := by
  induction d with
  | nil => simp [dictSet, dictGet]
  | cons p rest ih =>
    by_cases hk : p.1 = k
    · simp [dictSet, hk, dictGet]
    · simp only [dictSet, if_neg hk]
      simp only [dictGet, List.find?] at ih ⊢
      rw [decide_eq_false hk]
      exact ih

theorem countKey_del {κ β : Type} [DecidableEq κ] (d : List (κ × β)) (k : κ) :
    countKey (dictDel d k) k = 0 := by
  induction d with
  | nil => simp [dictDel, countKey]
  | cons p rest ih =>
    by_cases hk : p.1 = k
    · simp [dictDel, countKey, hk]
    · simp [dictDel, countKey, hk]

theorem countKey_eq_zero {κ β : Type} [DecidableEq κ] (d : List (κ × β)) (k : κ)
    (h : k ∉ d.map Prod.fst) : countKey d k = 0 := by
  induction d with
  | nil => rfl
  | cons p rest ih =>
    simp only [List.map_cons, List.mem_cons, not_or] at h
    have : ¬(p.1 = k) := fun hc => h.1 hc.symm
    simpa [countKey, this] using ih h.2

theorem countKey_set {κ β : Type} [DecidableEq κ] (d : List (κ × β)) (k : κ) (v : β)
    (hnd : (d.map Prod.fst).Nodup) : countKey (dictSet d k v) k = 1 := by
  induction d with
  | nil => simp [dictSet, countKey]
  | cons p rest ih =>
    simp only [List.map_cons, List.nodup_cons] at hnd
    by_cases hk : p.1 = k
    · have : countKey rest k = 0 := countKey_eq_zero rest k (hk ▸ hnd.1)
      simp [dictSet, hk, countKey] at this ⊢
      exact this
    · simpa [dictSet, hk, countKey] using ih hnd.2

theorem dictSet_idem {κ β : Type} [DecidableEq κ] (d : List (κ × β)) (k : κ) (v : β) :
    dictSet (dictSet d k v) k v = dictSet d k v := by
  induction d with
  | nil => simp [dictSet]
  | cons p rest ih =>
    by_cases hk : p.1 = k
    · simp [dictSet, hk]
    · simp [dictSet, hk, ih]

theorem anyKey_set {κ β : Type} [DecidableEq κ] (d : List (κ × β)) (k : κ) (v : β) :
    (dictSet d k v).any (fun p => p.1 = k) = true := by
  induction d with
  | nil => simp [dictSet]
  | cons p rest ih =>
    by_cases hk : p.1 = k
    · simp [dictSet, hk]
    · simp [dictSet, hk, ih]

theorem step_inv (cs : Chars) (pos : Nat) (s s' : TokSt)
    (hinv : TokInv cs pos s) (h : step cs pos s = .ok s') :
    TokInv cs (pos + 1) s' := by
  have hendLeS : s.endLast ≤ pos + 1 + 1 := by
    have := hinv.endLe
    omega
  have hstartS : s.startFound = true →
      s.endLast ≤ s.blockStart ∧ s.blockStart < pos + 1 ∧ getC cs s.blockStart = blockStarter :=
    fun hsf2 =>
      match hinv.start hsf2 with
      | ⟨h1, h2, h3⟩ => ⟨h1, Nat.lt_succ_of_lt h2, h3⟩
  simp only [step] at h
  by_cases hskip : s.skipNext = true
  · rw [if_pos hskip] at h
    injection h with h
    subst h
    exact ⟨hinv.chain, hendLeS, hinv.endPrev, hstartS, hinv.inside⟩
  · rw [if_neg hskip] at h
    by_cases hcond :
        (!s.insideVal && decide (getC cs pos = blockStarter)
          && decide (getC cs (pos + 1) = blockStarter)) = true
    · -- a new `{{` was recorded at `pos`
      rw [if_pos hcond] at h
      simp only [Bool.and_eq_true, Bool.not_eq_eq_eq_not, Bool.not_true,
        decide_eq_true_eq] at hcond
      obtain ⟨⟨hniv, hcur⟩, hnext⟩ := hcond
      -- the new block start is at or after `end_of_last_block`
      have hple : s.endLast ≤ pos := by
        rcases hinv.endPrev with h0 | ⟨h2, hch⟩
        · omega
        · by_contra hlt
          have : s.endLast = pos + 1 := by
            have := hinv.endLe
            omega
          rw [this] at hch
          simp only [Nat.add_sub_cancel] at hch
          rw [hcur] at hch
          exact absurd hch (by decide)
      -- after the record, the state has `startFound` and `insideVal = false`
      rw [if_pos rfl] at h
      have hiv : s.insideVal = false := hniv
      rw [hiv] at h
      simp only [Bool.false_eq_true, if_false] at h
      by_cases hq : (getC cs pos = dblQuote ∨ getC cs pos = sglQuote)
      · rw [if_pos (by simpa using hq)] at h
        injection h with h
        subst h
        exact ⟨hinv.chain, hendLeS, hinv.endPrev,
          fun _ => ⟨hple, Nat.lt_succ_self pos, hcur⟩, fun _ => rfl⟩
      · rw [if_neg (by simpa using hq)] at h
        have hne : ¬(getC cs pos = blockEnder ∧ getC cs (pos + 1) = blockEnder) := by
          intro hc
          rw [hcur] at hc
          exact absurd hc.1 (by decide)
        rw [if_neg (by simpa using hne)] at h
        injection h with h
        subst h
        exact ⟨hinv.chain, hendLeS, hinv.endPrev,
          fun _ => ⟨hple, Nat.lt_succ_self pos, hcur⟩, fun _ => rfl⟩
    · -- no new block start: the state is unchanged going into the branches
      rw [if_neg hcond] at h
      by_cases hsf : s.startFound = true
      · rw [if_pos hsf] at h
        by_cases hiv : s.insideVal = true
        · rw [if_pos hiv] at h
          by_cases hesc : (decide (getC cs pos = escapeChar)
              && (decide (getC cs (pos + 1) = dblQuote) || decide (getC cs (pos + 1) = sglQuote)
                || decide (getC cs (pos + 1) = escapeChar))) = true
          · rw [if_pos hesc] at h
            injection h with h
            subst h
            exact ⟨hinv.chain, hendLeS, hinv.endPrev, hstartS, hinv.inside⟩
          · rw [if_neg hesc] at h
            by_cases hdel : getC cs pos = s.delim
            · rw [if_pos hdel] at h
              injection h with h
              subst h
              exact ⟨hinv.chain, hendLeS, hinv.endPrev, hstartS,
                fun hivt => Bool.noConfusion hivt⟩
            · rw [if_neg hdel] at h
              injection h with h
              subst h
              exact ⟨hinv.chain, hendLeS, hinv.endPrev, hstartS, hinv.inside⟩
        · rw [if_neg hiv] at h
          by_cases hq : (decide (getC cs pos = dblQuote) || decide (getC cs pos = sglQuote)) = true
          · rw [if_pos hq] at h
            injection h with h
            subst h
            exact ⟨hinv.chain, hendLeS, hinv.endPrev, hstartS, fun _ => hsf⟩
          · rw [if_neg hq] at h
            by_cases hend : (decide (getC cs pos = blockEnder)
                && decide (getC cs (pos + 1) = blockEnder)) = true
            · rw [if_pos hend] at h
              simp only [Bool.and_eq_true, decide_eq_true_eq] at hend
              exact emit_inv cs pos s s' hend.2 hsf
                (Bool.not_eq_true _ ▸ fun hc => hiv hc) hinv h
            · rw [if_neg hend] at h
              injection h with h
              subst h
              exact ⟨hinv.chain, hendLeS, hinv.endPrev, hstartS, hinv.inside⟩
      · rw [if_neg hsf] at h
        injection h with h
        subst h
        exact ⟨hinv.chain, hendLeS, hinv.endPrev, hstartS, hinv.inside⟩

theorem tokLoop_inv (cs : Chars) (n : Nat) :
    ∀ (fuel pos : Nat) (s s' : TokSt), pos ≤ n - 1 → n - 1 ≤ fuel + pos →
    TokInv cs pos s → tokLoop cs n fuel pos s = .ok s' → TokInv cs (n - 1) s' := by
  intro fuel
  induction fuel with
  | zero =>
    intro pos s s' hle hge hinv h
    have hpos : pos = n - 1 := by omega
    simp only [tokLoop] at h
    injection h with h
    subst h
    rw [hpos] at hinv
    exact hinv
  | succ fuel ih =>
    intro pos s s' hle hge hinv h
    simp only [tokLoop] at h
    by_cases hlt : pos < n - 1
    · rw [if_pos hlt] at h
      cases hstep : step cs pos s with
      | error e => rw [hstep] at h; cases h
      | ok s2 =>
        rw [hstep] at h
        exact ih (pos + 1) s2 s' (by omega) (by omega) (step_inv cs pos s s2 hinv hstep) h
    · rw [if_neg hlt] at h
      injection h with h
      subst h
      have hpos : pos = n - 1 := by omega
      rw [hpos] at hinv
      exact hinv

theorem initSt_inv (cs : Chars) : TokInv cs 0 initSt := by
  refine ⟨?_, ?_, Or.inl rfl, ?_, ?_⟩
  · simp [initSt, spansOf, chainB]
  · show (0 : Nat) ≤ 1
    omega
  · intro hsf
    exact Bool.noConfusion hsf
  · intro hiv
    exact Bool.noConfusion hiv

/-- The emitted spans of a successful tokenization chain from position `0` to the
end of the input: they cover the whole input, in order, with no gaps and no
overlaps. -/
theorem tokenizeWithSpans_chain (text : Chars) (pairs : List ((Nat × Nat) × Block))
    (h : tokenizeWithSpans (some text) = .ok pairs) :
    chainB 0 (spansOf pairs) text.length = true := by
  simp only [tokenizeWithSpans, Option.getD_some] at h
  by_cases hemp : text.isEmpty = true
  · rw [if_pos hemp] at h
    injection h with h
    subst h
    have : text.length = 0 := by
      simpa [List.isEmpty_iff_length_eq_zero] using hemp
    simp [spansOf, chainB, this]
  · rw [if_neg hemp] at h
    by_cases hshort : text.length < 5
    · rw [if_pos hshort] at h
      injection h with h
      subst h
      simp [spansOf, chainB]
    · rw [if_neg hshort] at h
      cases hloop : tokLoop text text.length text.length 0 initSt with
      | error e =>
        simp only [hloop] at h
        cases h
      | ok s =>
        simp only [hloop] at h
        have hinv : TokInv text (text.length - 1) s :=
          tokLoop_inv text text.length text.length 0 initSt s (by omega) (by omega)
            (initSt_inv text) hloop
        have hend : s.endLast ≤ text.length := by
          have := hinv.endLe
          omega
        by_cases hfin : s.endLast < text.length
        · rw [if_pos hfin] at h
          injection h with h
          subst h
          simp only [spansOf, List.map_append, List.map_cons, List.map_nil]
          refine chainB_append _ 0 s.endLast _ _ hinv.chain ?_
          simp only [chainB, Bool.and_eq_true, decide_eq_true_eq, and_true, true_and]
          omega
        · rw [if_neg hfin] at h
          injection h with h
          subst h
          have : s.endLast = text.length := by omega
          rw [← this]
          exact hinv.chain

/-! ## Claim theorems -/

/-- Claim C10: `TemplateTokenizer.tokenize` is total on absent and short inputs —
`None` returns exactly one Text block with empty content, and any input shorter
than five characters (including the bare `{{}}`) returns exactly one Text block
equal to the whole input; such inputs are never scanned for code blocks and no
syntax error is raised (the result is `.ok`). -/
theorem tokenize_short_inputs_total (cs : Chars) (h : cs.length < 5) :
    tokenize (some cs) = .ok [Block.text cs] ∧ tokenize none = .ok [Block.text []] := by
  constructor
  · simp only [tokenize, tokenizeWithSpans, Option.getD_some]
    by_cases hemp : cs.isEmpty = true
    · have : cs = [] := List.isEmpty_iff.mp hemp
      subst this
      rfl
    · rw [if_neg hemp, if_pos h]
      rfl
  · rfl

/-- Witness for C10 at the bare `{{}}` input. -/
theorem tokenize_short_inputs_total_witness :
    ("\x7b\x7b\x7d\x7d".toList.length < 5) ∧
    (tokenize (some "\x7b\x7b\x7d\x7d".toList) = .ok [Block.text "\x7b\x7b\x7d\x7d".toList] ∧
      tokenize none = .ok [Block.text []]) :=
  ⟨by decide, tokenize_short_inputs_total "\x7b\x7b\x7d\x7d".toList (by decide)⟩

/-- Claim C2 (counterexample): tokenizing `{{$a}}` returns a single variable block
whose content field is `$a` — the delimiters are stripped — so concatenating the
raw content spans of the returned blocks yields `$a`, not the original input;
exact reconstruction from the returned blocks fails. -/
theorem tokenize_concat_counterexample :
    tokenize (some "\x7b\x7b$a\x7d\x7d".toList) = .ok [Block.var ['$', 'a'] ['a']] ∧
    concatContents [Block.var ['$', 'a'] ['a']] ≠ "\x7b\x7b$a\x7d\x7d".toList :=
  ⟨rfl, by decide⟩

/-- Claim C2 (amended): the source spans the tokenizer consumed for the emitted
blocks cover the entire input — in emission order, starting at position 0, ending
at the input length, with no gaps and no overlaps — and concatenating those raw
input spans reconstructs the input exactly; the blocks themselves carry only the
delimiter-stripped content (see the counterexample). -/
theorem tokenize_spans_cover_input (text : Chars) (pairs : List ((Nat × Nat) × Block))
    (h : tokenizeWithSpans (some text) = .ok pairs) :
    chainB 0 (spansOf pairs) text.length = true ∧
    ((spansOf pairs).map (fun p => slice text p.1 p.2)).flatten = text ∧
    tokenize (some text) = .ok (pairs.map Prod.snd) := by
  have hc := tokenizeWithSpans_chain text pairs h
  refine ⟨hc, ?_, ?_⟩
  · rw [chainB_flatten text _ 0 text.length hc, slice_full]
  · simp [tokenize, h, Except.map]

/-- Witness for the amended C2 at the input `a{{ $a }}b`. -/
theorem tokenize_spans_cover_input_witness :
    chainB 0 (spansOf [((0, 1), Block.text ['a']), ((1, 9), Block.var ['$', 'a'] ['a']),
      ((9, 10), Block.text ['b'])]) ("a\x7b\x7b $a \x7d\x7db".toList).length = true ∧
    ((spansOf [((0, 1), Block.text ['a']), ((1, 9), Block.var ['$', 'a'] ['a']),
      ((9, 10), Block.text ['b'])]).map
        (fun p => slice "a\x7b\x7b $a \x7d\x7db".toList p.1 p.2)).flatten =
      "a\x7b\x7b $a \x7d\x7db".toList ∧
    tokenize (some "a\x7b\x7b $a \x7d\x7db".toList) =
      .ok ([((0, 1), Block.text ['a']), ((1, 9), Block.var ['$', 'a'] ['a']),
        ((9, 10), Block.text ['b'])].map Prod.snd) :=
  tokenize_spans_cover_input "a\x7b\x7b $a \x7d\x7db".toList
    [((0, 1), Block.text ['a']), ((1, 9), Block.var ['$', 'a'] ['a']),
      ((9, 10), Block.text ['b'])] rfl

/-- Claim C3 (counterexample): adding a function under a name already present in
the plugin, without any overwrite request (no such parameter exists), does not
fail — `add_functions` returns normally and the registry now maps the name to the
new function, silently replacing the old one. -/
theorem addFunctions_duplicate_counterexample :
    addFunctions ⟨[("P", ⟨"P", [("n", 1)]⟩)]⟩ "P" [("n", 2)] = ⟨[("P", ⟨"P", [("n", 2)]⟩)]⟩ ∧
    funcLookup (addFunctions ⟨[("P", ⟨"P", [("n", 1)]⟩)]⟩ "P" [("n", 2)]) "P" "n" = some 2 ∧
    (some 2 : Option Nat) ≠ some 1 :=
  ⟨rfl, rfl, by decide⟩

/-- Claim C3 (amended): registering a function under a (collection, name) pair
whose name is already present never fails and silently replaces the previous
registration — `KernelPlugin.__setitem__` is plain dict assignment ("a existing
key will be overwritten", per its docstring) and `Kernel.add_functions` has no
overwrite parameter; the registry afterwards maps the pair to the new function. -/
theorem addFunctions_duplicate_silently_replaces (k : KernelState) (p fname : String)
    (gOld gNew : Nat) (h : funcLookup k p fname = some gOld) :
    funcLookup (addFunctions k p [(fname, gNew)]) p fname = some gNew := by
  unfold funcLookup at h ⊢
  unfold addFunctions
  cases hp : dictGet k.plugins p with
  | none => rw [hp] at h; cases h
  | some plugin =>
    rw [hp] at h
    simp only
    rw [dictGet_set]
    simp only [pluginUpdate, List.foldl_cons, List.foldl_nil, pluginSetItem]
    exact dictGet_set plugin.functions fname gNew

/-- Witness for the amended C3. -/
theorem addFunctions_duplicate_silently_replaces_witness :
    funcLookup (⟨[("P", ⟨"P", [("n", 1)]⟩)]⟩ : KernelState) "P" "n" = some 1 ∧
    funcLookup (addFunctions ⟨[("P", ⟨"P", [("n", 1)]⟩)]⟩ "P" [("n", 2)]) "P" "n" = some 2 :=
  ⟨rfl, addFunctions_duplicate_silently_replaces ⟨[("P", ⟨"P", [("n", 1)]⟩)]⟩ "P" "n" 1 2 rfl⟩

/-- Claim C9: hook registration is idempotent under object identity — adding the
same handler object twice leaves exactly one registration keyed by its identity
(so the event dispatch, which runs each registered entry once, invokes it exactly
once per event: double registration is literally the same dict as single
registration), and removing it by the same object deletes the registration. -/
theorem handler_registration_idempotent {α : Type} (d : List (Nat × (α → α)))
    (hid : Nat) (h : α → α) (a : α) (hnd : (d.map Prod.fst).Nodup) :
    addHandler (addHandler d hid h) hid h = addHandler d hid h ∧
    countKey (addHandler (addHandler d hid h) hid h) hid = 1 ∧
    onHandlers (addHandler (addHandler d hid h) hid h) a = onHandlers (addHandler d hid h) a ∧
    countKey (removeHandler (addHandler d hid h) hid) hid = 0 := by
  have hidem : addHandler (addHandler d hid h) hid h = addHandler d hid h :=
    dictSet_idem d hid h
  refine ⟨hidem, ?_, by rw [hidem], ?_⟩
  · rw [hidem]
    exact countKey_set d hid h hnd
  · unfold removeHandler addHandler
    rw [if_pos (anyKey_set d hid h)]
    exact countKey_del (dictSet d hid h) hid

/-- Witness for C9. -/
theorem handler_registration_idempotent_witness :
    (([(3, Nat.succ)].map Prod.fst).Nodup : Prop) ∧
    (addHandler (addHandler [(3, Nat.succ)] 7 Nat.succ) 7 Nat.succ =
        addHandler [(3, Nat.succ)] 7 Nat.succ ∧
      countKey (addHandler (addHandler [(3, Nat.succ)] 7 Nat.succ) 7 Nat.succ) 7 = 1 ∧
      onHandlers (addHandler (addHandler [(3, Nat.succ)] 7 Nat.succ) 7 Nat.succ) 0 =
        onHandlers (addHandler [(3, Nat.succ)] 7 Nat.succ) 0 ∧
      countKey (removeHandler (addHandler [(3, Nat.succ)] 7 Nat.succ) 7) 7 = 0) :=
  ⟨by decide, handler_registration_idempotent [(3, Nat.succ)] 7 Nat.succ 0 (by decide)⟩

/-- The template `{{$x}}` renders to the looked-up value of `x` (empty string when
absent), for any argument table. -/
theorem renderTemplate_var_x (cr : Chars → List Block → Args → Except Unit String)
    (args : Args) :
    renderTemplate cr "\x7b\x7b$x\x7d\x7d".toList (some args) =
      .ok ((dictGet args "x").getD "") := by
  have htok : (if ("\x7b\x7b$x\x7d\x7d".toList : Chars).isEmpty then
      (Except.ok [] : Except Unit (List Block))
    else tokenize (some "\x7b\x7b$x\x7d\x7d".toList)) = .ok [Block.var ['$', 'x'] ['x']] := rfl
  simp only [renderTemplate, htok]
  simp [renderBlocks, renderBlock, varRender, dictGet, String.join, List.mapM, List.mapM.loop,
    Except.map, bind, Except.bind, pure, Except.pure]

/-- Claim C8: rendering the single-block template `{{$x}}` with `x` bound to `v`
yields exactly `v`; with `x` absent it yields the empty string and no error; and a
named-argument variable rendered with no argument table also yields the empty
string (`NamedArgBlock.render`). -/
theorem renderTemplate_variable_substitution
    (cr : Chars → List Block → Args → Except Unit String) (v : String) :
    renderTemplate cr "\x7b\x7b$x\x7d\x7d".toList (some [("x", v)]) = .ok v ∧
    renderTemplate cr "\x7b\x7b$x\x7d\x7d".toList (some []) = .ok "" ∧
    namedArgRender (.namedArg "a=$x".toList ['a'] none (some (['$', 'x'], ['x']))) none =
      some "" := by
  refine ⟨?_, ?_, rfl⟩
  · rw [renderTemplate_var_x cr [("x", v)]]
    rfl
  · rw [renderTemplate_var_x cr []]
    rfl

/-- Claim C7: rendering is not encoded by default — the template `{{$x}}` with the
untrusted binding `x ↦ "a b"` (no trust flag anywhere) renders the raw value
verbatim, even though `_should_encode` says this variable must be encoded and the
base-class encoder would have produced `a%20b`; the encoding helpers exist on
`PromptTemplateBase` but `KernelPromptTemplate.render`/`render_blocks` never
invoke them. -/
theorem render_substitution_not_encoded
    (cr : Chars → List Block → Args → Except Unit String) :
    renderTemplate cr "\x7b\x7b$x\x7d\x7d".toList (some [("x", "a b")]) = .ok "a b" ∧
    shouldEncode "x" [] = true ∧
    getAllowedArgumentsEncoded false [] [("x", "a b")] = [("x", "a%20b")] ∧
    ("a b" : String) ≠ "a%20b" := by
  refine ⟨?_, rfl, rfl, by decide⟩
  rw [renderTemplate_var_x cr [("x", "a b")]]
  rfl

/-- Claim C4: with a hook configuration whose post-invoke handlers request repeat
on the first completion (possibly updating the argument table) and nothing on any
later round, and passive pre-invoke handlers, one logical `Kernel.invoke` executes
the underlying function exactly twice, the second execution receives the
(possibly hook-updated) argument table, and the call returns the second
execution's result. -/
theorem invoke_repeat_once_executes_twice
    (g : Nat → Args → Nat) (upd : Args → Option FRes → Option Args)
    (hooks : Nat → RoundHooks) (args0 : Args) (fuel : Nat) (hfuel : 2 ≤ fuel)
    (hpre : ∀ n a, (hooks n).pre a = noPreEvent)
    (hpost0 : ∀ a r e, (hooks 0).post a r e =
      { exception := e, isCancelRequested := false, updatedArguments := upd a r,
        isRepeatRequested := true, functionResult := r })
    (hpost1 : ∀ n a r e, (hooks (n + 1)).post a r e = defaultPost r e) :
    invokeK (fun n a => .ok ⟨some (g n a), none⟩) hooks fuel 0 0 args0 =
      some (.returned
        (some ⟨some (g 1 ((upd args0 (some ⟨some (g 0 args0), none⟩)).getD args0)), none⟩), 2) := by
  obtain ⟨k, rfl⟩ : ∃ k, fuel = k + 2 := ⟨fuel - 2, by omega⟩
  cases hu : upd args0 (some ⟨some (g 0 args0), none⟩) with
  | none =>
    simp [invokeK, hpre, hpost0, hpost1, noPreEvent, defaultPost, hu]
  | some a2 =>
    simp [invokeK, hpre, hpost0, hpost1, noPreEvent, defaultPost, hu]

/-- Witness for C4: a repeat-once hook schedule executes the function twice and
returns the second result. -/
theorem invoke_repeat_once_executes_twice_witness :
    invokeK (fun n a => .ok ⟨some ((fun m (_ : Args) => m) n a), none⟩)
      (fun n => match n with
        | 0 =>
          ⟨fun _ => noPreEvent,
           fun a r e =>
             ⟨e, false, (fun (_ : Args) (_ : Option FRes) => some [("b", "2")]) a r, true, r⟩⟩
        | _ + 1 => ⟨fun _ => noPreEvent, fun _ r e => defaultPost r e⟩) 2 0 0 [("a", "1")] =
      some (.returned (some ⟨some ((fun m (_ : Args) => m) 1
        (((fun (_ : Args) (_ : Option FRes) => some [("b", "2")]) [("a", "1")]
          (some ⟨some ((fun m (_ : Args) => m) 0 [("a", "1")]), none⟩)).getD [("a", "1")])),
        none⟩), 2) :=
  invoke_repeat_once_executes_twice (fun m _ => m)
    (fun _ _ => some [("b", "2")])
    (fun n => match n with
      | 0 =>
        ⟨fun _ => noPreEvent,
         fun a r e =>
           ⟨e, false, (fun (_ : Args) (_ : Option FRes) => some [("b", "2")]) a r, true, r⟩⟩
      | _ + 1 => ⟨fun _ => noPreEvent, fun _ r e => defaultPost r e⟩)
    [("a", "1")] 2 (by omega)
    (fun n a => by cases n <;> rfl)
    (fun a r e => rfl)
    (fun n a r e => rfl)

/-- Claim C5 (counterexample): a pre-invoke hook of `Kernel.invoke` requesting
skip (and not cancel) does not abort the invocation — the underlying function is
executed once (count 1, not 0) and its result is returned, contradicting
"aborts before the underlying function is called and returns no result". -/
theorem invoke_skip_ignored_counterexample :
    invokeK (fun n _ => .ok ⟨some n, none⟩)
      (fun _ => ⟨fun _ => ⟨false, true, none⟩, fun _ r e => defaultPost r e⟩) 1 0 0 [] =
      some (.returned (some ⟨some 0, none⟩), 1) ∧ (1 : Nat) ≠ 0 :=
  ⟨rfl, by decide⟩

/-- Claim C5 (amended): only `Kernel.invoke_stream` honours a skip request — there
the invocation aborts before the underlying function runs (no chunks, zero
executions) and yields no result; `Kernel.invoke` never consults
`is_skip_requested`, executes the underlying function once and returns its
result. -/
theorem invoke_skip_stream_only
    (pre : Args → PreEvent) (g : Args → List Chunk) (v : Nat → Args → Nat)
    (hooks : Nat → RoundHooks) (args : Args)
    (hskip : ∀ a, pre a = ⟨false, true, none⟩)
    (hh : ∀ a, (hooks 0).pre a = ⟨false, true, none⟩)
    (hpost : ∀ a r e, (hooks 0).post a r e = defaultPost r e) :
    invokeStreamK pre g args = ([], none, 0) ∧
    invokeK (fun n a => .ok ⟨some (v n a), none⟩) hooks 1 0 0 args =
      some (.returned (some ⟨some (v 0 args), none⟩), 1) := by
  constructor
  · simp [invokeStreamK, hskip]
  · simp [invokeK, hh, hpost, defaultPost]

/-- Witness for the amended C5. -/
theorem invoke_skip_stream_only_witness :
    invokeStreamK (fun _ => ⟨false, true, none⟩) (fun _ => [⟨9, none⟩]) [("a", "1")] =
      ([], none, 0) ∧
    invokeK (fun n a => .ok ⟨some ((fun _ _ => 7) n a), none⟩)
      (fun _ => ⟨fun _ => ⟨false, true, none⟩, fun _ r e => defaultPost r e⟩) 1 0 0 [("a", "1")] =
      some (.returned (some ⟨some 7, none⟩), 1) :=
  invoke_skip_stream_only (fun _ => ⟨false, true, none⟩) (fun _ => [⟨9, none⟩])
    (fun _ _ => 7) (fun _ => ⟨fun _ => ⟨false, true, none⟩, fun _ r e => defaultPost r e⟩)
    [("a", "1")] (fun _ => rfl) (fun _ => rfl) (fun _ _ _ => rfl)

/-- Per-request behaviour of `_process_tool_call` when well-formed invocations
succeed: the call never raises, a malformed payload yields exactly the corrective
tool message and no invocation, and a parsed payload yields exactly one logged
invocation. -/
theorem processToolCall_cases (kinvoke : String × String → Args → Except Unit String)
    (arguments : Args) (tc2 : ToolCall)
    (hok2 : ∀ fc2 ps, tc2.function = some fc2 → fc2.arguments = .parsed ps →
      ∃ r, kinvoke (splitName fc2.name) (dictUpdate arguments ps) = .ok r) :
    ∃ ms ls, processToolCall kinvoke arguments tc2 = .ok (ms, ls) ∧
      (∀ fc2 raw2, tc2.function = some fc2 → fc2.arguments = .malformed raw2 →
        ms = [⟨.tool, malformedArgsMessage, tc2.id, some fc2.name⟩] ∧ ls = []) ∧
      (∀ e ∈ ls, ∃ fc2 ps, tc2.function = some fc2 ∧ fc2.arguments = .parsed ps ∧
        e = (tc2.id, fc2.name, dictUpdate arguments ps)) ∧
      (∀ fc2 ps, tc2.function = some fc2 → fc2.arguments = .parsed ps →
        (tc2.id, fc2.name, dictUpdate arguments ps) ∈ ls) := by
  cases hf : tc2.function with
  | none =>
    refine ⟨[], [], by simp [processToolCall, hf], ?_, ?_, ?_⟩
    · intro fc2 raw2 hc
      exact Option.noConfusion hc
    · intro e he
      cases he
    · intro fc2 ps hc
      exact Option.noConfusion hc
  | some fc2 =>
    cases ha : fc2.arguments with
    | malformed raw2 =>
      refine ⟨[⟨.tool, malformedArgsMessage, tc2.id, some fc2.name⟩], [],
        by simp [processToolCall, hf, ha, parseArguments], ?_, ?_, ?_⟩
      · intro fc3 raw3 hc _
        injection hc with hc
        subst hc
        exact ⟨rfl, rfl⟩
      · intro e he
        cases he
      · intro fc3 ps hc hp
        injection hc with hc
        subst hc
        rw [ha] at hp
        cases hp
    | parsed ps =>
      obtain ⟨r, hr⟩ := hok2 fc2 ps hf ha
      refine ⟨[⟨.tool, r, tc2.id, some fc2.name⟩],
        [(tc2.id, fc2.name, dictUpdate arguments ps)],
        by simp [processToolCall, hf, ha, parseArguments, hr], ?_, ?_, ?_⟩
      · intro fc3 raw3 hc hm
        injection hc with hc
        subst hc
        rw [ha] at hm
        cases hm
      · intro e he
        rw [List.mem_singleton] at he
        exact ⟨fc2, ps, rfl, ha, he⟩
      · intro fc3 ps3 hc hp
        injection hc with hc
        subst hc
        rw [ha] at hp
        injection hp with hp
        subst hp
        exact List.mem_singleton.mpr rfl

/-- `_process_tool_calls` on a list of requests whose well-formed invocations all
succeed: the whole round resolves, and the invocation log contains exactly the
parsed requests. -/
theorem processToolCalls_tail_ok (kinvoke : String × String → Args → Except Unit String)
    (arguments : Args) :
    ∀ (l : List ToolCall),
    (∀ tc2 fc2 ps, tc2 ∈ l → tc2.function = some fc2 → fc2.arguments = .parsed ps →
      ∃ r, kinvoke (splitName fc2.name) (dictUpdate arguments ps) = .ok r) →
    ∃ msgs log, processToolCalls kinvoke arguments l = .ok (msgs, log) ∧
      (∀ e ∈ log, ∃ tc2 fc2 ps, tc2 ∈ l ∧ tc2.function = some fc2 ∧
        fc2.arguments = .parsed ps ∧ e = (tc2.id, fc2.name, dictUpdate arguments ps)) ∧
      (∀ tc2 fc2 ps, tc2 ∈ l → tc2.function = some fc2 → fc2.arguments = .parsed ps →
        (tc2.id, fc2.name, dictUpdate arguments ps) ∈ log) := by
  intro l
  induction l with
  | nil =>
    intro _
    refine ⟨[], [], rfl, ?_, ?_⟩
    · intro e he
      cases he
    · intro tc2 fc2 ps hm
      cases hm
  | cons hd tl ih =>
    intro hok
    obtain ⟨ms1, ls1, h1, _, plog, pcomp⟩ :=
      processToolCall_cases kinvoke arguments hd
        (fun fc2 ps hf ha => hok hd fc2 ps (List.mem_cons_self hd tl) hf ha)
    obtain ⟨msgs2, log2, h2, q2, q3⟩ :=
      ih (fun tc2 fc2 ps hm hf ha => hok tc2 fc2 ps (List.mem_cons_of_mem hd hm) hf ha)
    refine ⟨ms1 ++ msgs2, ls1 ++ log2, ?_, ?_, ?_⟩
    · simp only [processToolCalls, h1, h2]
    · intro e he
      rcases List.mem_append.mp he with he1 | he2
      · obtain ⟨fc2, ps, hf, ha, hee⟩ := plog e he1
        exact ⟨hd, fc2, ps, List.mem_cons_self hd tl, hf, ha, hee⟩
      · obtain ⟨tc2, fc2, ps, hm, hf, ha, hee⟩ := q2 e he2
        exact ⟨tc2, fc2, ps, List.mem_cons_of_mem hd hm, hf, ha, hee⟩
    · intro tc2 fc2 ps hm hf ha
      rcases List.mem_cons.mp hm with heq | htl2
      · subst heq
        exact List.mem_append_left log2 (pcomp fc2 ps hf ha)
      · exact List.mem_append_right ls1 (q3 tc2 fc2 ps htl2 hf ha)

/-- Claim C6: in one round of the tool-call resolution loop, a request whose
argument payload cannot be parsed is not invoked — a tool-role message reporting
the malformed arguments and carrying that request's identifier is appended — while
every other request is still resolved (each parsed request is invoked exactly
with its updated argument copy); the round completes without raising, so no error
reaches the end user. -/
theorem processToolCalls_malformed_recovered
    (kinvoke : String × String → Args → Except Unit String)
    (round : List ToolCall) (arguments : Args) (tc : ToolCall) (fc : FunctionCall) (raw : String)
    (hmem : tc ∈ round) (hfc : tc.function = some fc) (hraw : fc.arguments = .malformed raw)
    (hok : ∀ tc2 fc2 ps, tc2 ∈ round → tc2.function = some fc2 → fc2.arguments = .parsed ps →
      ∃ r, kinvoke (splitName fc2.name) (dictUpdate arguments ps) = .ok r) :
    ∃ msgs log, processToolCalls kinvoke arguments round = .ok (msgs, log) ∧
      (⟨.tool, malformedArgsMessage, tc.id, some fc.name⟩ : Msg) ∈ msgs ∧
      (∀ e ∈ log, ∃ tc2 fc2 ps, tc2 ∈ round ∧ tc2.function = some fc2 ∧
        fc2.arguments = .parsed ps ∧ e = (tc2.id, fc2.name, dictUpdate arguments ps)) ∧
      (∀ tc2 fc2 ps, tc2 ∈ round → tc2.function = some fc2 → fc2.arguments = .parsed ps →
        (tc2.id, fc2.name, dictUpdate arguments ps) ∈ log) := by
  induction round with
  | nil => cases hmem
  | cons hd tl ih =>
    obtain ⟨ms1, ls1, h1, pmal, plog, pcomp⟩ :=
      processToolCall_cases kinvoke arguments hd
        (fun fc2 ps hf ha => hok hd fc2 ps (List.mem_cons_self hd tl) hf ha)
    by_cases hmemtl : tc ∈ tl
    · obtain ⟨msgs2, log2, h2, q1, q2, q3⟩ := ih hmemtl
        (fun tc2 fc2 ps hm hf ha => hok tc2 fc2 ps (List.mem_cons_of_mem hd hm) hf ha)
      refine ⟨ms1 ++ msgs2, ls1 ++ log2, ?_, ?_, ?_, ?_⟩
      · simp only [processToolCalls, h1, h2]
      · exact List.mem_append_right ms1 q1
      · intro e he
        rcases List.mem_append.mp he with he1 | he2
        · obtain ⟨fc2, ps, hf, ha, he⟩ := plog e he1
          exact ⟨hd, fc2, ps, List.mem_cons_self hd tl, hf, ha, he⟩
        · obtain ⟨tc2, fc2, ps, hm, hf, ha, he⟩ := q2 e he2
          exact ⟨tc2, fc2, ps, List.mem_cons_of_mem hd hm, hf, ha, he⟩
      · intro tc2 fc2 ps hm hf ha
        rcases List.mem_cons.mp hm with heq | htl2
        · subst heq
          exact List.mem_append_left log2 (pcomp fc2 ps hf ha)
        · exact List.mem_append_right ls1 (q3 tc2 fc2 ps htl2 hf ha)
    · have heq : tc = hd := by
        rcases List.mem_cons.mp hmem with heq | htl2
        · exact heq
        · exact absurd htl2 hmemtl
      subst heq
      obtain ⟨hm1, hl1⟩ := pmal fc raw hfc hraw
      subst hm1
      subst hl1
      -- the rest of the round still resolves: run the tail with the restricted
      -- success hypothesis, getting its messages and log
      have hoktl : ∀ tc2 fc2 ps, tc2 ∈ tl → tc2.function = some fc2 →
          fc2.arguments = .parsed ps →
          ∃ r, kinvoke (splitName fc2.name) (dictUpdate arguments ps) = .ok r :=
        fun tc2 fc2 ps hm hf ha => hok tc2 fc2 ps (List.mem_cons_of_mem tc hm) hf ha
      obtain ⟨msgs2, log2, h2, q2, q3⟩ := processToolCalls_tail_ok kinvoke arguments tl hoktl
      refine ⟨[⟨.tool, malformedArgsMessage, tc.id, some fc.name⟩] ++ msgs2, [] ++ log2,
        ?_, ?_, ?_, ?_⟩
      · simp only [processToolCalls, h1, h2]
      · exact List.mem_append_left msgs2 (List.mem_singleton.mpr rfl)
      · intro e he
        simp only [List.nil_append] at he
        obtain ⟨tc2, fc2, ps, hm, hf, ha, hee⟩ := q2 e he
        exact ⟨tc2, fc2, ps, List.mem_cons_of_mem tc hm, hf, ha, hee⟩
      · intro tc2 fc2 ps hm hf ha
        rcases List.mem_cons.mp hm with heq2 | htl2
        · subst heq2
          rw [hfc] at hf
          injection hf with hf
          subst hf
          rw [hraw] at ha
          cases ha
        · simp only [List.nil_append]
          exact q3 tc2 fc2 ps htl2 hf ha

/-- Witness for C6: a round with one malformed and one well-formed request. -/
theorem processToolCalls_malformed_recovered_witness :
    ∃ msgs log,
      processToolCalls (fun _ _ => .ok "5") []
        [⟨some "id1", some ⟨"p-f", .malformed "oops"⟩⟩,
         ⟨some "id2", some ⟨"p-g", .parsed [("a", "1")]⟩⟩] = .ok (msgs, log) ∧
      (⟨.tool, malformedArgsMessage, some "id1", some "p-f"⟩ : Msg) ∈ msgs ∧
      (∀ e ∈ log, ∃ tc2 fc2 ps,
        tc2 ∈ [(⟨some "id1", some ⟨"p-f", .malformed "oops"⟩⟩ : ToolCall),
          ⟨some "id2", some ⟨"p-g", .parsed [("a", "1")]⟩⟩] ∧ tc2.function = some fc2 ∧
        fc2.arguments = .parsed ps ∧ e = (tc2.id, fc2.name, dictUpdate [] ps)) ∧
      (∀ tc2 fc2 ps,
        tc2 ∈ [(⟨some "id1", some ⟨"p-f", .malformed "oops"⟩⟩ : ToolCall),
          ⟨some "id2", some ⟨"p-g", .parsed [("a", "1")]⟩⟩] → tc2.function = some fc2 →
        fc2.arguments = .parsed ps → (tc2.id, fc2.name, dictUpdate [] ps) ∈ log) :=
  processToolCalls_malformed_recovered (fun _ _ => .ok "5")
    [⟨some "id1", some ⟨"p-f", .malformed "oops"⟩⟩,
     ⟨some "id2", some ⟨"p-g", .parsed [("a", "1")]⟩⟩] []
    ⟨some "id1", some ⟨"p-f", .malformed "oops"⟩⟩ ⟨"p-f", .malformed "oops"⟩ "oops"
    (List.mem_cons_self _ _) rfl rfl
    (fun _ _ _ _ _ _ => ⟨"5", rfl⟩)

/-- Claim C1: when auto-invocation is enabled and the model requests further tool
calls on every round (and every round's tool processing succeeds), the
`complete_chat` loop performs exactly `max_auto_invoke_attempts` rounds and then
stops without raising — but it returns python `None` (it falls off the `for`
loop), not the last accumulated result, contradicting the function's own
`List[OpenAIChatMessageContent]` return annotation. -/
theorem completeChat_budget_exhausted_returns_none
    (kinvoke : String × String → Args → Except Unit String)
    (send : Nat → List Msg → List ChatCompletionMsg) (arguments : Args)
    (maxAttempts : Nat) (history : List Msg)
    (htools : ∀ r h, shouldReturnCompletionsResponse (send r h) = false)
    (hproc : ∀ r h1, ∃ h2,
      processChatResponseWithToolCall kinvoke arguments (send r h1) h1 = .ok h2) :
    completeChat kinvoke send arguments maxAttempts history = .ok (none, maxAttempts) := by
  unfold completeChat
  suffices H : ∀ n round hist,
      completeChatAuto kinvoke send arguments n round hist = .ok (none, n) from
    H maxAttempts 0 history
  intro n
  induction n with
  | zero =>
    intro round hist
    rfl
  | succ n ih =>
    intro round hist
    obtain ⟨h2, hh2⟩ := hproc round hist
    simp only [completeChatAuto, htools round hist, Bool.false_eq_true, if_false, hh2,
      ih (round + 1) h2]

/-- Witness for C1: one completion per round that always carries a tool call;
with a budget of 3 the loop sends exactly 3 requests and returns `None`. -/
theorem completeChat_budget_exhausted_returns_none_witness :
    completeChat (fun _ _ => .ok "r")
      (fun _ _ => [⟨some "", some [⟨some "id2", some ⟨"p-g", .parsed [("a", "1")]⟩⟩]⟩])
      [] 3 [] = .ok (none, 3) :=
  completeChat_budget_exhausted_returns_none (fun _ _ => .ok "r")
    (fun _ _ => [⟨some "", some [⟨some "id2", some ⟨"p-g", .parsed [("a", "1")]⟩⟩]⟩])
    [] 3 [] (fun _ _ => rfl)
    (fun _ h1 =>
      ⟨(h1 ++ [(⟨.assistant, "", none, none⟩ : Msg)]) ++ [(⟨.tool, "r", some "id2", some "p-g"⟩ : Msg)],
        rfl⟩)

end SK
